import Mathlib

/-!
Shallow embedding in Lean 4 of the real-spherical-harmonics engine `e3nn/rsh.py`,
together with proofs and refutations of the specification's claims about it.

Tensors of shape `[...]` are modelled at a single batch element, so a tensor of
width `w` becomes a `List ℝ` of length `w`; machine floating point is modelled by
exact real arithmetic.  The sympy symbolic layer (`sympy_legendre`, `poly_legendre`)
is embedded through `Polynomial ℝ`: the polynomial in `z` produced by
`diff((z**2 - 1)**l, z, l + m)` is `legendrePolyZ`, and the `(coefficient,
(z-exponent, y-exponent))` term lists that `Poly(...).as_dict()` extracts from it
are `legendreTerms`.
-/

namespace Rsh

open Polynomial

/-- Embeds the `z`-dependent factor of `sympy_legendre(l, m)` in `rsh.py`:
the iterated derivative `diff((z**2 - 1)**l, z, l + m)` as a real polynomial. -/
noncomputable def legendrePolyZ (l m : ℕ) : Polynomial ℝ :=
  derivative^[l + m] ((X ^ 2 - 1) ^ l)

/-- Embeds the scalar factor of `sympy_legendre(l, m)`:
`1 / (2**l * factorial(l))` multiplied by the normalization
`(-1)**l * sqrt((2*l + 1) / (4*pi) * factorial(l - m) / factorial(l + m))`. -/
noncomputable def legendreCoeff (l m : ℕ) : ℝ :=
  (-1 : ℝ) ^ l *
      Real.sqrt ((2 * (l : ℝ) + 1) / (4 * Real.pi) * (Nat.factorial (l - m) : ℝ) /
        (Nat.factorial (l + m) : ℝ)) /
    ((2 : ℝ) ^ l * (Nat.factorial l : ℝ))

/-- Embeds one order's entry of `poly_legendre(l)`: the list of
`(coefficient, (z-exponent, y-exponent))` terms of `Poly(sympy_legendre(l, m))`.
Every term carries `y`-exponent `m` (the `y**m` factor of `sympy_legendre`), and the
`z`-exponents enumerate the support of `legendrePolyZ l m`, each with coefficient
`legendreCoeff l m` times the corresponding polynomial coefficient. -/
noncomputable def legendreTerms (l m : ℕ) : List (ℝ × ℕ × ℕ) :=
  ((legendrePolyZ l m).support.sort (· ≤ ·)).map
    (fun n => (legendreCoeff l m * (legendrePolyZ l m).coeff n, (n, m)))

/-- Embeds `poly_legendre(l)` of `rsh.py`: one term list per order `m` in
`range(l + 1)`.  The degree argument is an integer, exactly as in the source, where
a negative `l` makes `range(l + 1)` empty so that the returned table has no orders
at all (no error is raised on that path). -/
noncomputable def poly_legendre (l : ℤ) : List (List (ℝ × ℕ × ℕ)) :=
  (List.range (l + 1).toNat).map (fun m => legendreTerms l.toNat m)

/-- Embeds the inner accumulation of `_legendre_eval_polys`:
starting from `torch.zeros_like`, `val += coef * pwz[nz] * pwy[ny]` over the terms
of one order's polynomial.  The power tables `pwz`, `pwy` are modelled as functions
from the exponent to the tabulated power. -/
def evalPoly (poly : List (ℝ × ℕ × ℕ)) (pwz pwy : ℕ → ℝ) : ℝ :=
  poly.foldl (fun val t => val + t.1 * pwz t.2.1 * pwy t.2.2) 0

/-- Folding `+` of a pointwise image over a list is the initial value plus the sum
of the image. -/
theorem foldl_add_map {α : Type} (g : α → ℝ) (L : List α) (a : ℝ) :
    L.foldl (fun v t => v + g t) a = a + (L.map g).sum := by
  induction L generalizing a with
  | nil => simp
  | cons x xs ih => simp [ih, add_assoc]

/-- Summing a function over the sorted enumeration of a finite set of naturals is
the finite-set sum. -/
theorem sum_map_sort (s : Finset ℕ) (f : ℕ → ℝ) :
    ((s.sort (· ≤ ·)).map f).sum = ∑ n ∈ s, f n := by
  have h := Finset.sort_perm_toList (· ≤ ·) s
  calc ((s.sort (· ≤ ·)).map f).sum = (s.toList.map f).sum := (h.map f).sum_eq
    _ = ∑ n ∈ s, f n := by
        rw [Finset.sum, ← Multiset.coe_toList s.val, Multiset.map_coe, Multiset.sum_coe]
        rfl

/-- Evaluating the extracted term list of order `m` against the power tables of `z`
and `y` recovers the closed form `legendreCoeff l m * (legendrePolyZ l m).eval z * y ^ m`:
the term-list representation of `poly_legendre` is faithful to `sympy_legendre`. -/
theorem evalPoly_legendreTerms (l m : ℕ) (z y : ℝ) :
    evalPoly (legendreTerms l m) (fun n => z ^ n) (fun n => y ^ n) =
      legendreCoeff l m * (legendrePolyZ l m).eval z * y ^ m := by
  have h1 : evalPoly (legendreTerms l m) (fun n => z ^ n) (fun n => y ^ n)
      = (((legendrePolyZ l m).support.sort (· ≤ ·)).map
          (fun n => legendreCoeff l m * (legendrePolyZ l m).coeff n * z ^ n * y ^ m)).sum := by
    unfold evalPoly legendreTerms
    rw [foldl_add_map, List.map_map, zero_add]
    rfl
  rw [h1, sum_map_sort, Polynomial.eval_eq_sum, Polynomial.sum_def,
    Finset.mul_sum, Finset.sum_mul]
  exact Finset.sum_congr rfl (fun n _ => by ring)

/-- Evaluation at `z = 1` of the `m = 0` differentiated polynomial: the `l`-th
derivative of `(z² - 1)^l` at `z = 1` is `2^l · l!` (only the Leibniz term that puts
all `l` derivatives on the `(z - 1)^l` factor survives). -/
theorem eval_one_legendrePolyZ (l : ℕ) :
    (legendrePolyZ l 0).eval 1 = 2 ^ l * (Nat.factorial l : ℝ) := by
  have hfac : ((X : Polynomial ℝ) ^ 2 - 1) ^ l = (X - C 1) ^ l * (X + C 1) ^ l := by
    rw [← mul_pow]
    congr 1
    rw [Polynomial.C_1]
    ring
  unfold legendrePolyZ
  rw [Nat.add_zero, hfac, Polynomial.iterate_derivative_mul, Polynomial.eval_finset_sum,
    Finset.sum_eq_single_of_mem 0 (Finset.mem_range.mpr (Nat.succ_pos l))]
  · rw [Nat.choose_zero_right, one_smul, Nat.sub_zero,
      Polynomial.iterate_derivative_X_sub_pow_self, Function.iterate_zero_apply]
    simp
    norm_num [mul_comm]
  · intro k hk hk0
    have hkl : k ≤ l := Nat.lt_succ_iff.mp (Finset.mem_range.mp hk)
    rw [Polynomial.iterate_derivative_X_sub_pow]
    have hsub : l - (l - k) = k := Nat.sub_sub_self hkl
    simp [hsub, zero_pow hk0]

/-- Embeds one step of the order loop of `_legendre_eval_polys`: at order index `0`
the value is appended to the (still empty) accumulator (`p.append(val)`), and at
every later order it is both prepended and appended (`p = [val] + p + [val]`). -/
def mirrorStep (p : List ℝ) (mv : ℕ × ℝ) : List ℝ :=
  if mv.1 = 0 then p ++ [mv.2] else mv.2 :: (p ++ [mv.2])

/-- Embeds `_legendre_eval_polys(polys, pwz, pwy)` of `rsh.py`: each order's term
list is evaluated against the power tables and the values are folded, with the
order index of `enumerate`, into the mirrored block `[P_l, …, P_1, P_0, P_1, …, P_l]`. -/
def legendreEvalPolys (polys : List (List (ℝ × ℕ × ℕ))) (pwz pwy : ℕ → ℝ) : List ℝ :=
  ((polys.map (fun poly => evalPoly poly pwz pwy)).enum).foldl mirrorStep []

/-- The enumerated fold of `_legendre_eval_polys` over values `v :: vals` builds
exactly the palindrome `vals.reverse ++ v :: vals`. -/
theorem foldl_mirrorStep (v : ℝ) (vals : List ℝ) :
    ((v :: vals).enum).foldl mirrorStep [] = vals.reverse ++ v :: vals := by
  induction vals using List.reverseRecOn with
  | nil => rfl
  | append_singleton xs a ih =>
    have h1 : v :: (xs ++ [a]) = (v :: xs) ++ [a] := rfl
    rw [h1, List.enum_append, List.foldl_append, ih]
    simp [mirrorStep, List.append_assoc]

/-- Nonempty-list form of `foldl_mirrorStep`. -/
theorem legendreEvalPolys_eq_mirror (polys : List (List (ℝ × ℕ × ℕ))) (pwz pwy : ℕ → ℝ)
    (h : polys ≠ []) :
    legendreEvalPolys polys pwz pwy =
      (polys.map (fun poly => evalPoly poly pwz pwy)).tail.reverse ++
        polys.map (fun poly => evalPoly poly pwz pwy) := by
  unfold legendreEvalPolys
  cases polys with
  | nil => exact absurd rfl h
  | cons q qs => exact foldl_mirrorStep _ _

/-- A map over `range (2l+1)` that reads the value at distance `|i - l|` from the
centre is the same palindrome: mirror description by absolute index. -/
theorem range_map_absSub (f : ℕ → ℝ) (l : ℕ) :
    (List.range (2 * l + 1)).map (fun (i : ℕ) => f ((i : ℤ) - (l : ℤ)).natAbs) =
      ((List.range (l + 1)).map f).tail.reverse ++ (List.range (l + 1)).map f := by
  apply List.ext_getElem
  · simp
    omega
  · intro i h1 h2
    simp only [List.getElem_map, List.getElem_range]
    by_cases hi : i < (((List.range (l + 1)).map f).tail.reverse).length
    · rw [List.getElem_append_left hi]
      have hlen : (((List.range (l + 1)).map f).tail.reverse).length = l := by simp
      rw [List.getElem_reverse]
      rw [List.getElem_tail]
      simp only [List.getElem_map, List.getElem_range]
      congr 1
      rw [hlen] at hi
      simp only [List.length_tail, List.length_map, List.length_range]
      omega
    · push_neg at hi
      rw [List.getElem_append_right hi]
      simp only [List.getElem_map, List.getElem_range]
      congr 1
      have hlen : (((List.range (l + 1)).map f).tail.reverse).length = l := by simp
      rw [hlen] at hi
      rw [hlen]
      rw [List.length_map, List.length_range] at h1
      omega

/-- Casting a natural degree into the integer-degree `poly_legendre` yields the
table with one term list per order `0 … l`. -/
theorem poly_legendre_natCast (l : ℕ) :
    poly_legendre (l : ℤ) = (List.range (l + 1)).map (legendreTerms l) := by
  unfold poly_legendre
  norm_num

/-- Embeds the `shb` row the generated jit kernel stacks for one degree `l`:
the local values `l{l}_{abs(m)}` for `m in range(-l, l + 1)`, where each
`l{l}_{m}` is the inlined term-list formula of `poly_legendre(l)[m]` evaluated
with direct powers `z**nz * y**ny`. -/
noncomputable def jitRow (l : ℕ) (z y : ℝ) : List ℝ :=
  (List.range (2 * l + 1)).map
    (fun (i : ℕ) =>
      evalPoly (legendreTerms l ((i : ℤ) - (l : ℤ)).natAbs) (fun n => z ^ n) (fun n => y ^ n))

/-- The jit row for degree `l` coincides with the block the generic evaluator
`_legendre_eval_polys` produces from `poly_legendre(l)`. -/
theorem jitRow_eq_legendreEvalPolys (l : ℕ) (z y : ℝ) :
    jitRow l z y =
      legendreEvalPolys (poly_legendre (l : ℤ)) (fun n => z ^ n) (fun n => y ^ n) := by
  rw [poly_legendre_natCast,
    legendreEvalPolys_eq_mirror _ _ _ (by simp), List.map_map]
  exact range_map_absSub
    ((fun poly => evalPoly poly (fun n => z ^ n) fun n => y ^ n) ∘ legendreTerms l) l

/-- Embeds `torch.relu` on a scalar. -/
def relu (t : ℝ) : ℝ := max t 0

/-- Embeds `legendre(ls, z, y)` of `rsh.py` at one batch element.  When `y` is not
supplied it is derived as `(1 - z**2).relu().sqrt()`; the power tables
`zs = [z**m ...]`, `ys = [y**m ...]` are modelled by the power functions the
tables tabulate; the per-degree blocks are concatenated in `ls` order. -/
noncomputable def legendre (ls : List ℕ) (z : ℝ) (y : Option ℝ) : List ℝ :=
  let yv : ℝ := match y with
    | some w => w
    | none => Real.sqrt (relu (1 - z ^ 2))
  (ls.map (fun (l : ℕ) =>
    legendreEvalPolys (poly_legendre (l : ℤ)) (fun n => z ^ n) (fun n => yv ^ n))).flatten

/-- Embeds `spherical_harmonics_beta(ls, cosbeta, abssinbeta)`: an alias of
`legendre`. -/
noncomputable def spherical_harmonics_beta (ls : List ℕ) (cosbeta : ℝ)
    (abssinbeta : Option ℝ) : List ℝ :=
  legendre ls cosbeta abssinbeta

/-- Embeds `spherical_harmonics_alpha(l, alpha)` at one batch element: the
concatenation `[sqrt 2 * sin(m * alpha)]` for `m = l, …, 1`, then the constant `1`,
then `[sqrt 2 * cos(m * alpha)]` for `m = 1, …, l`. -/
noncomputable def spherical_harmonics_alpha (l : ℕ) (alpha : ℝ) : List ℝ :=
  ((List.range l).map (fun (i : ℕ) => Real.sqrt 2 * Real.sin (((l - i : ℕ) : ℝ) * alpha)))
    ++ [(1 : ℝ)]
    ++ ((List.range l).map (fun (i : ℕ) => Real.sqrt 2 * Real.cos (((i + 1 : ℕ) : ℝ) * alpha)))

/-- Embeds Python's `max(ls)` for the nonempty degree lists the source passes. -/
def maxL (ls : List ℕ) : ℕ := ls.foldr max 0

/-- Recursion underlying `mul_m_lm`: walks the degree list, multiplying each
degree's `2l+1`-wide slice of the flat tensor by the centred slice
`x_m[lmax - l : lmax + l + 1]` of the azimuthal tensor, and concatenates. -/
def mulMLmGo (lmax : ℕ) (x_m : List ℝ) : List ℕ → List ℝ → List ℝ
  | [], _ => []
  | l :: ls, x_lm =>
      List.zipWith (· * ·) (x_lm.take (2 * l + 1)) ((x_m.drop (lmax - l)).take (2 * l + 1)) ++
        mulMLmGo lmax x_m ls (x_lm.drop (2 * l + 1))

/-- Embeds `mul_m_lm(ls, x_m, x_lm)` of `rsh.py`: `lmax` is recovered from the
width of the azimuthal tensor as `x_m.shape[-1] // 2`. -/
def mul_m_lm (ls : List ℕ) (x_m x_lm : List ℝ) : List ℝ :=
  mulMLmGo (x_m.length / 2) x_m ls x_lm

/-- Embeds `spherical_harmonics_alpha_z_y_cpu(ls, alpha, z, y)`: the generic CPU
composition of the azimuthal evaluator, the Legendre evaluator over the
`poly_legendre` tables, and the combiner. -/
noncomputable def spherical_harmonics_alpha_z_y_cpu (ls : List ℕ) (alpha z y : ℝ) : List ℝ :=
  mul_m_lm ls (spherical_harmonics_alpha (maxL ls) alpha)
    (spherical_harmonics_beta ls z (some y))

/-- Embeds the `shb` tensor stacked by the code generated in
`_spherical_harmonics_alpha_z_y_jit(ls)`: the jit rows of all requested degrees in
order. -/
noncomputable def shbJit (ls : List ℕ) (z y : ℝ) : List ℝ :=
  (ls.map (fun l => jitRow l z y)).flatten

/-- Embeds the compiled kernel `spherical_harmonics_alpha_z_y_jit(ls, alpha, z, y)`:
the generated `main` computes the inlined `shb` rows, evaluates
`rsh.spherical_harmonics_alpha(lmax, alpha)` and combines with `rsh.mul_m_lm`.
The `lru_cache` around the code generation memoizes a pure builder, so the cached
kernel is this same function of the inputs. -/
noncomputable def spherical_harmonics_alpha_z_y_jit (ls : List ℕ) (alpha z y : ℝ) : List ℝ :=
  mul_m_lm ls (spherical_harmonics_alpha (maxL ls) alpha) (shbJit ls z y)

/-- Embeds `torch.atan2(y, x)` as the argument of the complex number `x + i y`
(in particular `atan2 0 0 = 0`, as in torch). -/
noncomputable def atan2 (y x : ℝ) : ℝ := Complex.arg ⟨x, y⟩

/-- Embeds `spherical_harmonics_xyz_cpu(ls, xyz)` at one sample: the vector is
divided componentwise by its L2 norm (no zero-norm check appears in the source),
decomposed into `alpha = atan2(y, x)`, `beta_cos = z`,
`beta_asin = sqrt(x² + y²)`, and handed to the jit kernel. -/
noncomputable def spherical_harmonics_xyz_cpu (ls : List ℕ) (v : ℝ × ℝ × ℝ) : List ℝ :=
  let n : ℝ := Real.sqrt (v.1 ^ 2 + v.2.1 ^ 2 + v.2.2 ^ 2)
  let x : ℝ := v.1 / n
  let y : ℝ := v.2.1 / n
  let z : ℝ := v.2.2 / n
  spherical_harmonics_alpha_z_y_jit ls (atan2 y x) z (Real.sqrt (x ^ 2 + y ^ 2))

/-- Embeds the `norm_coef` list built in `spherical_harmonics_xyz_cuda`: for each
`lh in range((lmax + 1) // 2)` a run of `4*lh + 1` ones then `4*lh + 3` minus-ones,
extended by `2*lmax + 1` ones when `lmax` is even. -/
noncomputable def norm_coef (lmax : ℕ) : List ℝ :=
  ((List.range ((lmax + 1) / 2)).map
      (fun lh => List.replicate (4 * lh + 1) (1 : ℝ) ++
        List.replicate (4 * lh + 3) (-1 : ℝ))).flatten
    ++ (if lmax % 2 = 0 then List.replicate (2 * lmax + 1) (1 : ℝ) else [])

/-- Widths `2l + 1` of the requested degree blocks. -/
def widths (ls : List ℕ) : List ℕ := ls.map (fun l => 2 * l + 1)

/-- Running start offset `i` of the fill loop of
`spherical_harmonics_expand_matrix` before the `j`-th block is written. -/
def offsetK (ls : List ℕ) (j : ℕ) : ℕ := ((widths ls).take j).sum

/-- Flat width `sum(2 * l + 1 for l in ls)` of the concatenated layout. -/
def flatK (ls : List ℕ) : ℕ := (widths ls).sum

/-- Embeds the tensor returned by `spherical_harmonics_expand_matrix(ls)` as a
function of its three indices `(j, a, k)`.  The source fills a zero tensor of shape
`[len(ls), 2*lmax+1, sum(2l+1)]`, writing for each `j` the identity
`eye(2*l+1)` into the slab `[j, lmax-l : lmax+l+1, i : i+2l+1]` with `i` the running
offset; since the slab of step `j` is the only write touching first index `j`, the
entry is `1` exactly when `(a, k)` lies on that slab's diagonal and `0` otherwise. -/
def spherical_harmonics_expand_matrix (ls : List ℕ) (j a k : ℕ) : ℝ :=
  let lmax := maxL ls
  let l := ls.getD j 0
  let i := offsetK ls j
  if lmax - l ≤ a ∧ a < lmax + l + 1 ∧ i ≤ k ∧ k < i + (2 * l + 1) ∧
      a - (lmax - l) = k - i then 1 else 0

/-- Explicit-`y` form of `legendre`. -/
theorem legendre_some (ls : List ℕ) (z y : ℝ) :
    legendre ls z (some y) =
      (ls.map (fun (l : ℕ) =>
        legendreEvalPolys (poly_legendre (l : ℤ)) (fun n => z ^ n) (fun n => y ^ n))).flatten :=
  rfl

/-- Single-degree form of `legendre`. -/
theorem legendre_single (l : ℕ) (z y : ℝ) :
    legendre [l] z (some y) =
      legendreEvalPolys (poly_legendre (l : ℤ)) (fun n => z ^ n) (fun n => y ^ n) := by
  rw [legendre_some]
  simp

/-- The stacked `shb` tensor of the generated kernel equals the output of the
generic beta evaluator. -/
theorem shbJit_eq_beta (ls : List ℕ) (z y : ℝ) :
    shbJit ls z y = spherical_harmonics_beta ls z (some y) := by
  unfold shbJit spherical_harmonics_beta
  rw [legendre_some]
  congr 1
  exact List.map_congr_left (fun l _ => jitRow_eq_legendreEvalPolys l z y)

/-- C2: for every degree set `ls` and all inputs `(alpha, z, y)`, the specialized
jit kernel built for that exact `ls` returns the same value as the generic CPU
composition of the alpha evaluator, the Legendre evaluator over the
`poly_legendre` tables, and the combiner; the `lru_cache` memoizes a pure builder,
so caching and specialization never alter the numerical output. -/
theorem jit_matches_generic_cpu (ls : List ℕ) (alpha z y : ℝ) :
    spherical_harmonics_alpha_z_y_jit ls alpha z y =
      spherical_harmonics_alpha_z_y_cpu ls alpha z y := by
  unfold spherical_harmonics_alpha_z_y_jit spherical_harmonics_alpha_z_y_cpu
  rw [shbJit_eq_beta]

/-- C5: for every maximum degree `l ≥ 0` (including `l = 0`, where the block is
just `[1]`) the azimuthal evaluator returns a block of width `2*l + 1` ordered
`[sqrt 2 * sin(l*alpha), …, sqrt 2 * sin(alpha), 1, sqrt 2 * cos(alpha), …,
sqrt 2 * cos(l*alpha)]`: entry `i < l` is `sqrt 2 * sin((l - i) * alpha)`, entry
`l` is `1`, entry `i` with `l < i < 2*l + 1` is `sqrt 2 * cos((i - l) * alpha)`,
and reads past the width give the default `0`. -/
theorem alpha_evaluator_layout (l : ℕ) (alpha : ℝ) (i : ℕ) :
    (spherical_harmonics_alpha l alpha).length = 2 * l + 1 ∧
    (spherical_harmonics_alpha l alpha).getD i 0 =
      (if i < l then Real.sqrt 2 * Real.sin (((l - i : ℕ) : ℝ) * alpha)
       else if i = l then 1
       else if i < 2 * l + 1 then Real.sqrt 2 * Real.cos (((i - l : ℕ) : ℝ) * alpha)
       else 0) := by
  have hlen : (spherical_harmonics_alpha l alpha).length = 2 * l + 1 := by
    simp [spherical_harmonics_alpha]
    omega
  refine ⟨hlen, ?_⟩
  by_cases hi : i < l
  · rw [if_pos hi, List.getD_eq_getElem _ _ (by omega)]
    unfold spherical_harmonics_alpha
    rw [List.getElem_append_left (by simp <;> omega), List.getElem_append_left (by simp <;> omega)]
    simp
  · rw [if_neg hi]
    by_cases hil : i = l
    · rw [if_pos hil, hil, List.getD_eq_getElem _ _ (by omega)]
      unfold spherical_harmonics_alpha
      rw [List.getElem_append_left (by simp <;> omega), List.getElem_append_right (by simp)]
      simp
    · rw [if_neg hil]
      by_cases hiw : i < 2 * l + 1
      · rw [if_pos hiw, List.getD_eq_getElem _ _ (by omega)]
        unfold spherical_harmonics_alpha
        rw [List.getElem_append_right (by simp <;> omega)]
        simp only [List.getElem_map, List.getElem_range]
        have harg : i - (((List.range l).map
            (fun (j : ℕ) => Real.sqrt 2 * Real.sin (((l - j : ℕ) : ℝ) * alpha)))
              ++ [(1 : ℝ)]).length + 1 = i - l := by
          simp
          omega
        rw [harg]
      · rw [if_neg hiw]
        exact List.getD_eq_default _ _ (by omega)

/-- C6: the `2l + 1`-wide Legendre block of degree `l` is ordered by ascending
order `m` (entry `l + m` is the order-`m` polynomial value) and duplicates every
positive order's value at the mirrored position `l - m`, for all inputs `z, y`. -/
theorem legendre_block_mirror (l m : ℕ) (z y : ℝ) (hm1 : 1 ≤ m) (hml : m ≤ l) :
    (legendre [l] z (some y)).length = 2 * l + 1 ∧
    (legendre [l] z (some y)).getD (l + m) 0 =
      evalPoly (legendreTerms l m) (fun n => z ^ n) (fun n => y ^ n) ∧
    (legendre [l] z (some y)).getD (l - m) 0 = (legendre [l] z (some y)).getD (l + m) 0 := by
  rw [legendre_single, ← jitRow_eq_legendreEvalPolys]
  have hlen : (jitRow l z y).length = 2 * l + 1 := by simp [jitRow]
  refine ⟨hlen, ?_, ?_⟩
  · rw [List.getD_eq_getElem _ _ (by omega)]
    unfold jitRow
    simp only [List.getElem_map, List.getElem_range]
    congr 2
    omega
  · rw [List.getD_eq_getElem _ _ (by omega), List.getD_eq_getElem _ _ (by omega)]
    unfold jitRow
    simp only [List.getElem_map, List.getElem_range]
    congr 2
    omega

/-- Cancellation of the `1 / (2^l l!)` prefactor against the pole value `2^l l!`:
the order-zero coefficient times the pole value of its polynomial. -/
theorem legendreCoeff_pole (l : ℕ) :
    legendreCoeff l 0 * (2 ^ l * (Nat.factorial l : ℝ)) =
      (-1 : ℝ) ^ l * Real.sqrt ((2 * (l : ℝ) + 1) / (4 * Real.pi)) := by
  have hfac : (Nat.factorial l : ℝ) ≠ 0 := Nat.cast_ne_zero.mpr (Nat.factorial_ne_zero l)
  have h2 : ((2 : ℝ) ^ l * (Nat.factorial l : ℝ)) ≠ 0 :=
    mul_ne_zero (pow_ne_zero _ two_ne_zero) hfac
  unfold legendreCoeff
  rw [Nat.sub_zero, Nat.add_zero, div_mul_cancel₀ _ h2, mul_div_cancel_right₀ _ hfac]

/-- Value of the degree-`l` Legendre block at the north pole `z = 1, y = 0`:
the centre entry (order `0`) is `(-1)^l * sqrt((2l+1)/(4*pi))` and every other
order vanishes because of its `y ^ m` factor. -/
theorem legendre_pole (l : ℕ) :
    legendre [l] 1 (some 0) =
      List.replicate l 0 ++
        ((-1 : ℝ) ^ l * Real.sqrt ((2 * (l : ℝ) + 1) / (4 * Real.pi))) :: List.replicate l 0 := by
  rw [legendre_single, ← jitRow_eq_legendreEvalPolys]
  apply List.ext_getElem
  · simp [jitRow]
    omega
  · intro i h1 h2
    have hlen : i < 2 * l + 1 := by simpa [jitRow] using h1
    unfold jitRow
    simp only [List.getElem_map, List.getElem_range]
    rw [evalPoly_legendreTerms]
    by_cases hil : i = l
    · have h0 : ((i : ℤ) - (l : ℤ)).natAbs = 0 := by omega
      rw [h0, pow_zero, mul_one, eval_one_legendrePolyZ, legendreCoeff_pole,
        List.getElem_append_right (by simp [hil])]
      simp [hil]
    · have hm : ((i : ℤ) - (l : ℤ)).natAbs ≠ 0 := by omega
      rw [zero_pow hm, mul_zero]
      by_cases hi2 : i < l
      · rw [List.getElem_append_left (by simpa using hi2)]
        simp
      · rw [List.getElem_append_right (by simp <;> omega)]
        have hne : i - l ≠ 0 := by omega
        simp [List.getElem_cons, hne]

/-- Full-pipeline value of the Cartesian CPU path at the north pole direction
`(0, 0, 1)` with `ls = [1]`: the output is `(0, -sqrt(3/(4*pi)), 0)`. -/
theorem xyz_pole_value :
    spherical_harmonics_xyz_cpu [1] ((0 : ℝ), (0 : ℝ), (1 : ℝ)) =
      [0, -Real.sqrt (3 / (4 * Real.pi)), 0] := by
  simp only [spherical_harmonics_xyz_cpu]
  norm_num [Real.sqrt_one]
  have hshb : shbJit [1] (1 : ℝ) (0 : ℝ) = [0, -Real.sqrt (3 / (4 * Real.pi)), 0] := by
    have h1 : shbJit [1] (1 : ℝ) (0 : ℝ) = jitRow 1 1 0 := by simp [shbJit]
    rw [h1, jitRow_eq_legendreEvalPolys, ← legendre_single, legendre_pole]
    norm_num
  unfold spherical_harmonics_alpha_z_y_jit
  rw [hshb]
  have hr : List.range 1 = [0] := rfl
  simp [mul_m_lm, mulMLmGo, spherical_harmonics_alpha, maxL, hr]

/-- C1 counterexample: the spec's concrete scenario fails on the code: at
direction `(0, 0, 1)` with `ls = [1]` the output is not `(0, sqrt(3/(4*pi)), 0)`
(the centre entry has the opposite sign). -/
theorem xyz_pole_ne_spec_value :
    spherical_harmonics_xyz_cpu [1] ((0 : ℝ), (0 : ℝ), (1 : ℝ)) ≠
      [0, Real.sqrt (3 / (4 * Real.pi)), 0] := by
  rw [xyz_pole_value]
  intro h
  have hpos : 0 < Real.sqrt (3 / (4 * Real.pi)) := Real.sqrt_pos.mpr (by positivity)
  have h2 : -Real.sqrt (3 / (4 * Real.pi)) = Real.sqrt (3 / (4 * Real.pi)) := by
    have := congrArg (fun L => L.getD 1 0) h
    simpa using this
  linarith

/-- C1 (corrected): evaluating the polar factor at `β = 0` (`z = 1`, `y = 0`)
yields `(-1)^l * sqrt((2l+1)/(4*pi))` at order `m = 0` — the code folds the sign
`(-1)^l` into `sympy_legendre` — and `0` at every order `m ≠ 0`; accordingly the
direction `(0, 0, 1)` with `ls = [1]` evaluates to `(0, -sqrt(3/(4*pi)), 0)`. -/
theorem legendre_at_pole (l : ℕ) :
    legendre [l] 1 (some 0) =
      List.replicate l 0 ++
        ((-1 : ℝ) ^ l * Real.sqrt ((2 * (l : ℝ) + 1) / (4 * Real.pi))) :: List.replicate l 0 ∧
    spherical_harmonics_xyz_cpu [1] ((0 : ℝ), (0 : ℝ), (1 : ℝ)) =
      [0, -Real.sqrt (3 / (4 * Real.pi)), 0] :=
  ⟨legendre_pole l, xyz_pole_value⟩

/-- C10: when `legendre` is called without an explicit `y` it derives
`y = sqrt(relu(1 - z^2))`; for every real `z` — including `|z| > 1` — the
radicand is clamped nonnegative before the square root, the derived `y` is
nonnegative, and the call coincides with the explicit-`y` call at that value. -/
theorem legendre_default_y (ls : List ℕ) (z : ℝ) :
    0 ≤ relu (1 - z ^ 2) ∧
    0 ≤ Real.sqrt (relu (1 - z ^ 2)) ∧
    legendre ls z none = legendre ls z (some (Real.sqrt (relu (1 - z ^ 2)))) :=
  ⟨le_max_right _ _, Real.sqrt_nonneg _, rfl⟩

/-- C4 counterexample: requesting degree `-1` does not fail: `poly_legendre (-1)`
silently returns the empty table, because `range(l + 1)` is empty for negative `l`
and `sympy_legendre` is never invoked. -/
theorem poly_legendre_neg_one : poly_legendre (-1) = [] := by
  unfold poly_legendre
  norm_num

/-- C4 (corrected): for every degree `l < 0` the coefficient generation raises no
error at all; it returns an empty polynomial table (no orders), since the Python
`range(l + 1)` iterated by `poly_legendre` is empty. -/
theorem poly_legendre_neg (l : ℤ) (hl : l < 0) : poly_legendre l = [] := by
  unfold poly_legendre
  have h0 : (l + 1).toNat = 0 := by omega
  rw [h0]
  rfl

/-- Witness for `poly_legendre_neg` at the concrete degree `-2`. -/
theorem poly_legendre_neg_witness : (-2 : ℤ) < 0 ∧ poly_legendre (-2) = [] :=
  ⟨by decide, poly_legendre_neg (-2) (by decide)⟩

/-- C3 (corrected): the Cartesian CPU entry point contains no zero-norm check:
a zero-norm direction is divided componentwise by its zero norm and the evaluation
proceeds on the resulting degenerate components, silently producing a value
instead of failing. -/
theorem xyz_cpu_zero_norm_total (ls : List ℕ) :
    spherical_harmonics_xyz_cpu ls ((0 : ℝ), (0 : ℝ), (0 : ℝ)) =
      spherical_harmonics_alpha_z_y_jit ls (atan2 0 0) 0 0 := by
  simp only [spherical_harmonics_xyz_cpu]
  norm_num

/-- C3 counterexample: at the zero-norm input with `ls = [0]` the call returns the
ordinary value `[sqrt(1/(4*pi))]` — evaluation succeeds, no `DegenerateVector`
failure is surfaced. -/
theorem xyz_cpu_zero_vector_yields_value :
    spherical_harmonics_xyz_cpu [0] ((0 : ℝ), (0 : ℝ), (0 : ℝ)) =
      [Real.sqrt (1 / (4 * Real.pi))] := by
  have hpz : legendrePolyZ 0 0 = 1 := by
    unfold legendrePolyZ
    simp
  have hterm : evalPoly (legendreTerms 0 0) (fun n => (0 : ℝ) ^ n) (fun n => (0 : ℝ) ^ n)
      = Real.sqrt (1 / (4 * Real.pi)) := by
    rw [evalPoly_legendreTerms, hpz]
    simp [legendreCoeff, Nat.factorial]
  have hr : List.range 1 = [0] := rfl
  have hshb : shbJit [0] (0 : ℝ) (0 : ℝ) = [Real.sqrt (1 / (4 * Real.pi))] := by
    simp [shbJit, jitRow, hr, hterm]
  simp only [spherical_harmonics_xyz_cpu]
  norm_num
  unfold spherical_harmonics_alpha_z_y_jit
  rw [hshb]
  simp [mul_m_lm, mulMLmGo, spherical_harmonics_alpha, maxL]

/-- C9: the CPU Cartesian evaluation depends only on the direction of its input:
scaling a nonzero vector by any `c > 0` leaves the output exactly unchanged,
because the input is L2-normalized before the angle decomposition. -/
theorem xyz_cpu_scale_invariant (ls : List ℕ) (v : ℝ × ℝ × ℝ) (c : ℝ)
    (hv : v ≠ ((0 : ℝ), (0 : ℝ), (0 : ℝ))) (hc : 0 < c) :
    spherical_harmonics_xyz_cpu ls (c * v.1, c * v.2.1, c * v.2.2) =
      spherical_harmonics_xyz_cpu ls v := by
  have hnorm : Real.sqrt ((c * v.1) ^ 2 + (c * v.2.1) ^ 2 + (c * v.2.2) ^ 2)
      = c * Real.sqrt (v.1 ^ 2 + v.2.1 ^ 2 + v.2.2 ^ 2) := by
    have h1 : (c * v.1) ^ 2 + (c * v.2.1) ^ 2 + (c * v.2.2) ^ 2
        = c ^ 2 * (v.1 ^ 2 + v.2.1 ^ 2 + v.2.2 ^ 2) := by ring
    rw [h1, Real.sqrt_mul (sq_nonneg c), Real.sqrt_sq hc.le]
  have hc0 : c ≠ 0 := ne_of_gt hc
  simp only [spherical_harmonics_xyz_cpu]
  rw [hnorm, mul_div_mul_left _ _ hc0, mul_div_mul_left _ _ hc0, mul_div_mul_left _ _ hc0]

/-- Witness for `xyz_cpu_scale_invariant` at `ls = [1]`, `v = (0,0,1)`, `c = 2`. -/
theorem xyz_cpu_scale_invariant_witness :
    ((0 : ℝ), (0 : ℝ), (1 : ℝ)) ≠ ((0 : ℝ), (0 : ℝ), (0 : ℝ)) ∧ (0 : ℝ) < 2 ∧
    spherical_harmonics_xyz_cpu [1] (2 * (0 : ℝ), 2 * (0 : ℝ), 2 * (1 : ℝ)) =
      spherical_harmonics_xyz_cpu [1] ((0 : ℝ), (0 : ℝ), (1 : ℝ)) :=
  ⟨by simp, by norm_num,
    xyz_cpu_scale_invariant [1] ((0 : ℝ), (0 : ℝ), (1 : ℝ)) 2 (by simp) (by norm_num)⟩

/-- Witness for `legendre_block_mirror` at `l = 2`, `m = 1`, `z = 0`, `y = 0`. -/
theorem legendre_block_mirror_witness :
    (1 : ℕ) ≤ 1 ∧ (1 : ℕ) ≤ 2 ∧
    ((legendre [2] 0 (some 0)).length = 2 * 2 + 1 ∧
     (legendre [2] 0 (some 0)).getD (2 + 1) 0 =
       evalPoly (legendreTerms 2 1) (fun n => (0 : ℝ) ^ n) (fun n => (0 : ℝ) ^ n) ∧
     (legendre [2] 0 (some 0)).getD (2 - 1) 0 = (legendre [2] 0 (some 0)).getD (2 + 1) 0) :=
  ⟨by decide, by decide, legendre_block_mirror 2 1 0 0 (by decide) (by decide)⟩

/-- The paired `+1` and `-1` runs of `norm_coef` are exactly the per-degree-block signs
`(-1)^l` of the degrees `0 … 2h - 1`: each loop step `lh` contributes the
even-parity block `2*lh` (width `4*lh + 1`, sign `+1`) and the odd-parity block
`2*lh + 1` (width `4*lh + 3`, sign `-1`). -/
theorem norm_coef_pairs (h : ℕ) :
    ((List.range h).map (fun lh => List.replicate (4 * lh + 1) (1 : ℝ) ++
        List.replicate (4 * lh + 3) (-1 : ℝ))).flatten =
      ((List.range (2 * h)).map
        (fun l => List.replicate (2 * l + 1) ((-1 : ℝ) ^ l))).flatten := by
  induction h with
  | zero => rfl
  | succ n ih =>
    have h2 : 2 * (n + 1) = (2 * n + 1) + 1 := by ring
    rw [List.range_succ, h2, List.range_succ, List.range_succ]
    simp only [List.map_append, List.flatten_append, ih]
    have he : ((-1 : ℝ)) ^ (2 * n) = 1 := Even.neg_one_pow (even_two_mul n)
    have ho : ((-1 : ℝ)) ^ (2 * n + 1) = -1 := Odd.neg_one_pow ⟨n, by ring⟩
    have hw1 : 2 * (2 * n) + 1 = 4 * n + 1 := by ring
    have hw2 : 2 * (2 * n + 1) + 1 = 4 * n + 3 := by ring
    simp [he, ho, hw1, hw2, List.append_assoc]

/-- The sign-correction vector applied to the accelerator output is, block by
block, the per-degree sign `(-1)^l` replicated over the `2l + 1` orders of each
degree `0 … lmax`. -/
theorem norm_coef_blocks (lmax : ℕ) :
    norm_coef lmax =
      ((List.range (lmax + 1)).map
        (fun l => List.replicate (2 * l + 1) ((-1 : ℝ) ^ l))).flatten := by
  unfold norm_coef
  rcases Nat.even_or_odd lmax with he | ho
  · obtain ⟨h, hh⟩ := he
    subst hh
    have hdiv : (h + h + 1) / 2 = h := by omega
    have hmod : (h + h) % 2 = 0 := by omega
    have h2 : h + h + 1 = 2 * h + 1 := by ring
    rw [hdiv, hmod, if_pos rfl, h2, List.range_succ, norm_coef_pairs]
    have he2 : ((-1 : ℝ)) ^ (2 * h) = 1 := Even.neg_one_pow (even_two_mul h)
    have hw : 2 * (2 * h) + 1 = 2 * (h + h) + 1 := by ring
    simp [he2, hw]
  · obtain ⟨h, hh⟩ := ho
    subst hh
    have hdiv : (2 * h + 1 + 1) / 2 = h + 1 := by omega
    have hmod : (2 * h + 1) % 2 = 1 := by omega
    have h2 : 2 * h + 1 + 1 = 2 * (h + 1) := by ring
    rw [hdiv, hmod]
    norm_num
    rw [h2, norm_coef_pairs]

/-- Total length of the sign-correction vector: `(lmax + 1)^2`, matching the
`(lmax + 1)²`-row accelerator output it scales. -/
theorem norm_coef_length (lmax : ℕ) :
    (norm_coef lmax).length = (lmax + 1) ^ 2 := by
  rw [norm_coef_blocks]
  induction lmax with
  | zero => rfl
  | succ n ih =>
    rw [List.range_succ]
    simp only [List.map_append, List.flatten_append, List.length_append, ih]
    simp
    ring

/-- C8: for `lmax ≤ 10` the per-(l,m) sign correction applied to the accelerator
output has total length `(lmax + 1)^2`, and its `+1` and `-1` runs of widths `4k + 1`
and `4k + 3` (with the final `2*lmax + 1` run of `+1` when `lmax` is even) are
exactly the signs `(-1)^l`, one per degree block `l = 0 … lmax`, each replicated
over the block's `2l + 1` orders. -/
theorem cuda_sign_correction (lmax : ℕ) (h : lmax ≤ 10) :
    (norm_coef lmax).length = (lmax + 1) ^ 2 ∧
    norm_coef lmax =
      ((List.range (lmax + 1)).map
        (fun l => List.replicate (2 * l + 1) ((-1 : ℝ) ^ l))).flatten :=
  ⟨norm_coef_length lmax, norm_coef_blocks lmax⟩

/-- Witness for `cuda_sign_correction` at `lmax = 4`. -/
theorem cuda_sign_correction_witness :
    (4 : ℕ) ≤ 10 ∧
    ((norm_coef 4).length = (4 + 1) ^ 2 ∧
     norm_coef 4 =
       ((List.range (4 + 1)).map
         (fun l => List.replicate (2 * l + 1) ((-1 : ℝ) ^ l))).flatten) :=
  ⟨by decide, cuda_sign_correction 4 (by decide)⟩

/-- Right-multiplication of the expand tensor by a flat degree-blocked vector `x`
of length `flatK ls`: entry `(j, a)` of the resulting `(L, M)` matrix. -/
noncomputable def expandApply (ls : List ℕ) (x : ℕ → ℝ) (j a : ℕ) : ℝ :=
  ∑ k ∈ Finset.range (flatK ls), spherical_harmonics_expand_matrix ls j a k * x k

/-- Contraction of the `(L, M)` matrix back to flat form through the same
tensor: entry `k` of the recovered flat vector. -/
noncomputable def expandContract (ls : List ℕ) (x : ℕ → ℝ) (k : ℕ) : ℝ :=
  ∑ j ∈ Finset.range ls.length, ∑ a ∈ Finset.range (2 * maxL ls + 1),
    spherical_harmonics_expand_matrix ls j a k * expandApply ls x j a

/-- Offset recursion: the block offsets of a cons shift by the head's width. -/
theorem offsetK_cons_succ (l : ℕ) (t : List ℕ) (j : ℕ) :
    offsetK (l :: t) (j + 1) = (2 * l + 1) + offsetK t j := by
  unfold offsetK widths
  simp

/-- Total width recursion over a cons. -/
theorem flatK_cons (l : ℕ) (t : List ℕ) :
    flatK (l :: t) = (2 * l + 1) + flatK t := by
  unfold flatK widths
  simp

/-- Every block starts and ends inside the flat width. -/
theorem offsetK_add_width_le (ls : List ℕ) (j : ℕ) (hj : j < ls.length) :
    offsetK ls j + (2 * ls.getD j 0 + 1) ≤ flatK ls := by
  induction ls generalizing j with
  | nil => simp at hj
  | cons l t ih =>
    cases j with
    | zero =>
      rw [flatK_cons]
      simp [offsetK]
    | succ n =>
      rw [offsetK_cons_succ, List.getD_cons_succ, flatK_cons]
      have := ih n (by simpa using hj)
      omega

/-- Each requested degree is bounded by the maximum degree. -/
theorem getD_le_maxL (ls : List ℕ) (j : ℕ) (hj : j < ls.length) :
    ls.getD j 0 ≤ maxL ls := by
  induction ls generalizing j with
  | nil => simp at hj
  | cons l t ih =>
    have hmax : maxL (l :: t) = max l (maxL t) := rfl
    cases j with
    | zero =>
      rw [List.getD_cons_zero, hmax]
      exact le_max_left _ _
    | succ n =>
      rw [List.getD_cons_succ, hmax]
      exact le_trans (ih n (by simpa using hj)) (le_max_right _ _)

/-- Exactly one degree block of the flat layout contains any given flat index. -/
theorem sum_block_indicator (ls : List ℕ) (k : ℕ) (hk : k < flatK ls) :
    (∑ j ∈ Finset.range ls.length,
      if offsetK ls j ≤ k ∧ k < offsetK ls j + (2 * ls.getD j 0 + 1) then (1 : ℝ) else 0) = 1 := by
  induction ls generalizing k with
  | nil => simp [flatK, widths] at hk
  | cons l t ih =>
    rw [List.length_cons, Finset.sum_range_succ']
    by_cases hk0 : k < 2 * l + 1
    · have h0 : (if offsetK (l :: t) 0 ≤ k ∧
          k < offsetK (l :: t) 0 + (2 * (l :: t).getD 0 0 + 1) then (1 : ℝ) else 0) = 1 := by
        simp only [offsetK, List.take_zero, List.sum_nil, List.getD_cons_zero]
        rw [if_pos (by omega)]
      have hz : ∀ j ∈ Finset.range t.length,
          (if offsetK (l :: t) (j + 1) ≤ k ∧
            k < offsetK (l :: t) (j + 1) + (2 * (l :: t).getD (j + 1) 0 + 1) then (1 : ℝ) else 0)
            = 0 := by
        intro j hj
        rw [offsetK_cons_succ]
        exact if_neg (by omega)
      rw [Finset.sum_congr rfl hz, h0]
      simp
    · push_neg at hk0
      have hk' : k - (2 * l + 1) < flatK t := by
        rw [flatK_cons] at hk
        omega
      have h0 : (if offsetK (l :: t) 0 ≤ k ∧
          k < offsetK (l :: t) 0 + (2 * (l :: t).getD 0 0 + 1) then (1 : ℝ) else 0) = 0 := by
        simp only [offsetK, List.take_zero, List.sum_nil, List.getD_cons_zero]
        exact if_neg (by omega)
      have hcong : ∀ j ∈ Finset.range t.length,
          (if offsetK (l :: t) (j + 1) ≤ k ∧
            k < offsetK (l :: t) (j + 1) + (2 * (l :: t).getD (j + 1) 0 + 1) then (1 : ℝ) else 0)
          = (if offsetK t j ≤ k - (2 * l + 1) ∧
              k - (2 * l + 1) < offsetK t j + (2 * t.getD j 0 + 1) then (1 : ℝ) else 0) := by
        intro j hj
        rw [offsetK_cons_succ, List.getD_cons_succ]
        exact if_congr (by omega) rfl rfl
      rw [Finset.sum_congr rfl hcong, h0, add_zero]
      exact ih (k - (2 * l + 1)) hk'

/-- Row structure of the product: row `j` of the expanded matrix carries the
`j`-th degree's `2l + 1` values centred at columns `maxL - l … maxL + l` and is
zero elsewhere. -/
theorem expandApply_eq (ls : List ℕ) (x : ℕ → ℝ) (j a : ℕ) (hj : j < ls.length) :
    expandApply ls x j a =
      if maxL ls - ls.getD j 0 ≤ a ∧ a ≤ maxL ls + ls.getD j 0 then
        x (offsetK ls j + (a - (maxL ls - ls.getD j 0))) else 0 := by
  have hlm : ls.getD j 0 ≤ maxL ls := getD_le_maxL ls j hj
  have hwid : offsetK ls j + (2 * ls.getD j 0 + 1) ≤ flatK ls := offsetK_add_width_le ls j hj
  unfold expandApply
  by_cases hband : maxL ls - ls.getD j 0 ≤ a ∧ a ≤ maxL ls + ls.getD j 0
  · rw [if_pos hband]
    have hk0lt : offsetK ls j + (a - (maxL ls - ls.getD j 0)) < flatK ls := by omega
    rw [Finset.sum_eq_single_of_mem (offsetK ls j + (a - (maxL ls - ls.getD j 0)))
      (Finset.mem_range.mpr hk0lt)]
    · simp only [spherical_harmonics_expand_matrix]
      rw [if_pos (by omega), one_mul]
    · intro b hb hbne
      simp only [spherical_harmonics_expand_matrix]
      rw [if_neg (by omega), zero_mul]
  · rw [if_neg hband, Finset.sum_eq_zero]
    intro b hb
    simp only [spherical_harmonics_expand_matrix]
    rw [if_neg (by omega), zero_mul]

/-- Contracting the expanded matrix back recovers every in-range flat entry. -/
theorem expandContract_eq (ls : List ℕ) (x : ℕ → ℝ) (k : ℕ) (hk : k < flatK ls) :
    expandContract ls x k = x k := by
  unfold expandContract
  have hinner : ∀ j ∈ Finset.range ls.length,
      (∑ a ∈ Finset.range (2 * maxL ls + 1),
        spherical_harmonics_expand_matrix ls j a k * expandApply ls x j a) =
      (if offsetK ls j ≤ k ∧ k < offsetK ls j + (2 * ls.getD j 0 + 1) then (1 : ℝ) else 0)
        * x k := by
    intro j hj
    have hj' : j < ls.length := Finset.mem_range.mp hj
    have hlm : ls.getD j 0 ≤ maxL ls := getD_le_maxL ls j hj'
    by_cases hblk : offsetK ls j ≤ k ∧ k < offsetK ls j + (2 * ls.getD j 0 + 1)
    · have ha0lt : (maxL ls - ls.getD j 0) + (k - offsetK ls j) < 2 * maxL ls + 1 := by omega
      rw [Finset.sum_eq_single_of_mem ((maxL ls - ls.getD j 0) + (k - offsetK ls j))
        (Finset.mem_range.mpr ha0lt)]
      · simp only [spherical_harmonics_expand_matrix]
        rw [if_pos (by omega), one_mul, if_pos hblk, one_mul,
          expandApply_eq ls x j _ hj', if_pos (by omega)]
        congr 1
        omega
      · intro b hb hbne
        simp only [spherical_harmonics_expand_matrix]
        rw [if_neg (by omega), zero_mul]
    · rw [Finset.sum_eq_zero, if_neg hblk, zero_mul]
      intro b hb
      simp only [spherical_harmonics_expand_matrix]
      rw [if_neg (by omega), zero_mul]
  rw [Finset.sum_congr rfl hinner, ← Finset.sum_mul, sum_block_indicator ls k hk, one_mul]

/-- C7: multiplying a flat degree-blocked vector by the tensor of
`spherical_harmonics_expand_matrix(ls)` places the `j`-th degree's `2l_j + 1`
values in row `j` centred at columns `maxL - l_j … maxL + l_j` with zeros
elsewhere, and contracting the result back through the same tensor reproduces
every entry of the original flat vector exactly. -/
theorem expand_matrix_roundtrip (ls : List ℕ) (x : ℕ → ℝ) (j a k : ℕ)
    (hj : j < ls.length) (hk : k < flatK ls) :
    expandApply ls x j a =
      (if maxL ls - ls.getD j 0 ≤ a ∧ a ≤ maxL ls + ls.getD j 0 then
        x (offsetK ls j + (a - (maxL ls - ls.getD j 0))) else 0) ∧
    expandContract ls x k = x k :=
  ⟨expandApply_eq ls x j a hj, expandContract_eq ls x k hk⟩

/-- Witness for `expand_matrix_roundtrip` at `ls = [0, 1]`, `x n = n`, `j = 1`,
`a = 0`, `k = 2`. -/
theorem expand_matrix_roundtrip_witness :
    (1 : ℕ) < ([0, 1] : List ℕ).length ∧ (2 : ℕ) < flatK [0, 1] ∧
    (expandApply [0, 1] (fun n => (n : ℝ)) 1 0 =
      (if maxL [0, 1] - ([0, 1] : List ℕ).getD 1 0 ≤ 0 ∧
          0 ≤ maxL [0, 1] + ([0, 1] : List ℕ).getD 1 0 then
        (fun n => (n : ℝ))
          ((offsetK [0, 1] 1 + (0 - (maxL [0, 1] - ([0, 1] : List ℕ).getD 1 0)) : ℕ))
      else 0) ∧
     expandContract [0, 1] (fun n => (n : ℝ)) 2 = (fun n => (n : ℝ)) (2 : ℕ)) :=
  ⟨by decide, by decide,
    expand_matrix_roundtrip [0, 1] (fun n => (n : ℝ)) 1 0 2 (by decide) (by decide)⟩

end Rsh
